import Mathlib

/-!
Verification of the incremental Unicode text-encoding engine of
libfilezilla's string utilities (src/include/string.hpp), together with the
string-to-integer parser `to_integral_impl` / `to_integral` found in the
same header.

The UTF-8 / UTF-16 routines (`is_valid_utf8`, `unicode_codepoint_to_utf8_append`,
`utf16be_to_utf8_append`, `utf16le_to_utf8_append`) are only declared in the
header; their bodies live in string.cpp, which is not part of the sources at
hand. Those components are therefore modelled from the specification
(spec.md sections 4.1 to 4.3 and the doc comments of string.hpp:803-858),
as noted on each definition. `to_integral_impl` and `to_integral` are
templates fully contained in the header and are embedded directly from the
source. Byte strings are lists of naturals below 256; machine integers of
the parser are modelled as unbounded `Int` with the explicit range guards of
the source.
-/

namespace LibFZ

/-- Modelled from the spec: the body of `unicode_codepoint_to_utf8_append`
(declared at src/include/string.hpp:833) is in string.cpp, absent from the
sources. Canonical UTF-8 byte sequence of a codepoint, per spec section 4.1:
1 byte below 0x80, 2 bytes below 0x800, 3 bytes below 0x10000, else 4 bytes;
the codepoint's bits fill the payload positions most-significant group
first, each continuation byte carrying the low 6 bits of its group. -/
def utf8_bytes (c : Nat) : List Nat :=
  if c < 0x80 then [c]
  else if c < 0x800 then [0xC0 + c / 0x40, 0x80 + c % 0x40]
  else if c < 0x10000 then
    [0xE0 + c / 0x1000, 0x80 + c / 0x40 % 0x40, 0x80 + c % 0x40]
  else
    [0xF0 + c / 0x40000, 0x80 + c / 0x1000 % 0x40, 0x80 + c / 0x40 % 0x40,
      0x80 + c % 0x40]

/-- A valid Unicode scalar value: at most 0x10FFFF and not a surrogate. -/
def isScalar (c : Nat) : Bool :=
  decide (c ≤ 0x10FFFF ∧ (c < 0xD800 ∨ 0xDFFF < c))

/-- Modelled from the spec: `unicode_codepoint_to_utf8_append`
(src/include/string.hpp:828-833). The source documents the behaviour on an
invalid codepoint as undefined; the spec (sections 4.1, 6, 9) redesigns this
to an explicit `InvalidCodepoint` failure that appends nothing, modelled
here as `none`. On a valid scalar the encoding is appended to `result`. -/
def unicode_codepoint_to_utf8_append (result : List Nat) (c : Nat) :
    Option (List Nat) :=
  if isScalar c then some (result ++ utf8_bytes c) else none

/-- Mid-chunk state of the UTF-8 validator, per spec section 3:
clean (at a codepoint boundary), or mid-sequence holding the number of
continuation bytes still expected and the permitted range for the very next
byte (narrowed after the leads 0xE0, 0xED, 0xF0, 0xF4). -/
inductive VState where
  | clean : VState
  | mid (remaining lo hi : Nat) : VState
deriving DecidableEq

/-- Modelled from the spec: one byte of the UTF-8 validation automaton of
`is_valid_utf8` (spec section 4.2, rules 2 and 3). `none` is a violation at
this byte. From a clean state the byte is classified as ASCII, as a 2/3/4
byte lead (0xE0, 0xED, 0xF0, 0xF4 narrowing the range of the first
continuation byte to reject overlong encodings, encoded surrogates and
codepoints above 0x10FFFF), or rejected (bare continuations, 0xC0, 0xC1,
0xF5-0xFF). Mid-sequence the byte must lie in the active range; later
continuation bytes use the default range [0x80, 0xBF]. -/
def stepByte (st : VState) (b : Nat) : Option VState :=
  match st with
  | .mid n lo hi =>
    if lo ≤ b ∧ b ≤ hi then
      if n ≤ 1 then some .clean else some (.mid (n - 1) 0x80 0xBF)
    else none
  | .clean =>
    if b ≤ 0x7F then some .clean
    else if 0xC2 ≤ b ∧ b ≤ 0xDF then some (.mid 1 0x80 0xBF)
    else if b = 0xE0 then some (.mid 2 0xA0 0xBF)
    else if b = 0xED then some (.mid 2 0x80 0x9F)
    else if 0xE1 ≤ b ∧ b ≤ 0xEF then some (.mid 2 0x80 0xBF)
    else if b = 0xF0 then some (.mid 3 0x90 0xBF)
    else if b = 0xF4 then some (.mid 3 0x80 0x8F)
    else if 0xF1 ≤ b ∧ b ≤ 0xF3 then some (.mid 3 0x80 0xBF)
    else none

/-- Runs the validation automaton over a chunk. On a violation the error
carries the offset of the offending byte from the start of the chunk. -/
def runBytes (st : VState) : List Nat → Except Nat VState
  | [] => .ok st
  | b :: rest =>
    match stepByte st b with
    | some st' =>
      match runBytes st' rest with
      | .ok s2 => .ok s2
      | .error off => .error (off + 1)
    | none => .error 0

/-- The exposed `size_t` state of the streaming `is_valid_utf8`: a clean or
mid-sequence automaton state while validating, or — after a failure — the
offset of the offending byte (spec section 3). -/
inductive Utf8State where
  | ok (v : VState) : Utf8State
  | fail (offset : Nat) : Utf8State
deriving DecidableEq

/-- The clean (zero) validation state the caller initializes. -/
def utf8_clean : Utf8State := .ok .clean

/-- Modelled from the spec: the streaming `is_valid_utf8`
(src/include/string.hpp:806-826), whose body is in string.cpp, absent from
the sources. Consumes one chunk, resuming from `st`; returns the
accept/reject result and the updated state. On failure the state records
the offset of the offending byte within this chunk. -/
def validate_utf8_step (s : List Nat) (st : Utf8State) : Bool × Utf8State :=
  match st with
  | .ok v =>
    match runBytes v s with
    | .ok v' => (true, .ok v')
    | .error off => (false, .fail off)
  | .fail off => (false, .fail off)

/-- Modelled from the spec: the one-shot `is_valid_utf8`
(src/include/string.hpp:803-804). Initializes the state to clean internally
and additionally requires a clean state at end of input, so a truncated
trailing sequence is itself a failure. -/
def is_valid_utf8 (s : List Nat) : Bool :=
  match validate_utf8_step s utf8_clean with
  | (true, .ok .clean) => true
  | _ => false

/-- A sequence of streaming `is_valid_utf8` calls over successive chunks,
stopping at the first rejected chunk. -/
def runChunks (chunks : List (List Nat)) (st : Utf8State) : Bool × Utf8State :=
  match chunks with
  | [] => (true, st)
  | c :: rest =>
    match validate_utf8_step c st with
    | (true, st') => runChunks rest st'
    | (false, st') => (false, st')

/-! ### Lemmas on the UTF-8 byte automaton -/

theorem stepByte_clean_ascii (b : Nat) (h : b ≤ 0x7F) :
    stepByte .clean b = some .clean := by
  simp [stepByte, h]

theorem stepByte_clean_lead2 (b : Nat) (h1 : 0xC2 ≤ b) (h2 : b ≤ 0xDF) :
    stepByte .clean b = some (.mid 1 0x80 0xBF) := by
  have hn : ¬ b ≤ 0x7F := by omega
  simp [stepByte, hn, h1, h2]

theorem stepByte_clean_E0 : stepByte .clean 0xE0 = some (.mid 2 0xA0 0xBF) := by
  decide

theorem stepByte_clean_ED : stepByte .clean 0xED = some (.mid 2 0x80 0x9F) := by
  decide

theorem stepByte_clean_lead3 (b : Nat) (h1 : 0xE1 ≤ b) (h2 : b ≤ 0xEF)
    (h3 : b ≠ 0xED) : stepByte .clean b = some (.mid 2 0x80 0xBF) := by
  have hn1 : ¬ b ≤ 0x7F := by omega
  have hn2 : ¬ (0xC2 ≤ b ∧ b ≤ 0xDF) := by omega
  have hn3 : b ≠ 0xE0 := by omega
  simp [stepByte, hn1, hn2, hn3, h3, h1, h2]

theorem stepByte_clean_F0 : stepByte .clean 0xF0 = some (.mid 3 0x90 0xBF) := by
  decide

theorem stepByte_clean_F4 : stepByte .clean 0xF4 = some (.mid 3 0x80 0x8F) := by
  decide

theorem stepByte_clean_lead4 (b : Nat) (h1 : 0xF1 ≤ b) (h2 : b ≤ 0xF3) :
    stepByte .clean b = some (.mid 3 0x80 0xBF) := by
  have hn1 : ¬ b ≤ 0x7F := by omega
  have hn2 : ¬ (0xC2 ≤ b ∧ b ≤ 0xDF) := by omega
  have hn3 : b ≠ 0xE0 := by omega
  have hn4 : b ≠ 0xED := by omega
  have hn5 : ¬ (0xE1 ≤ b ∧ b ≤ 0xEF) := by omega
  have hn6 : b ≠ 0xF0 := by omega
  have hn7 : b ≠ 0xF4 := by omega
  simp [stepByte, hn1, hn2, hn3, hn4, hn5, hn6, hn7, h1, h2]

theorem stepByte_mid_last (lo hi b : Nat) (h1 : lo ≤ b) (h2 : b ≤ hi) :
    stepByte (.mid 1 lo hi) b = some .clean := by
  simp [stepByte, h1, h2]

theorem stepByte_mid_more (n lo hi b : Nat) (h1 : lo ≤ b) (h2 : b ≤ hi)
    (h3 : 2 ≤ n) : stepByte (.mid n lo hi) b = some (.mid (n - 1) 0x80 0xBF) := by
  have hn : ¬ n ≤ 1 := by omega
  simp [stepByte, h1, h2, hn]

/-- Shifts a failure offset by the length of an already-consumed prefix. -/
def shiftErr (n : Nat) : Except Nat VState → Except Nat VState
  | .ok s => .ok s
  | .error off => .error (n + off)

/-- Composition of the automaton run over an appended chunk: the whole run
is the run of the first part, continued — with offsets shifted — by the run
of the second part. -/
theorem runBytes_append (l1 l2 : List Nat) (st : VState) :
    runBytes st (l1 ++ l2) =
      match runBytes st l1 with
      | .ok s1 => shiftErr l1.length (runBytes s1 l2)
      | .error off => .error off := by
  induction l1 generalizing st with
  | nil =>
    simp only [List.nil_append, runBytes, List.length_nil]
    cases runBytes st l2 with
    | ok s2 => rfl
    | error off => simp [shiftErr]
  | cons b rest ih =>
    cases hs : stepByte st b with
    | none => rw [List.cons_append]; simp only [runBytes, hs]
    | some st' =>
      rw [List.cons_append]
      simp only [runBytes, hs]
      rw [ih st']
      cases h1 : runBytes st' rest with
      | ok s1 =>
        cases h2 : runBytes s1 l2 with
        | ok s2 => simp [shiftErr, h2]
        | error off =>
          simp only [shiftErr, h2]
          simp [shiftErr]
          omega
      | error off => simp

theorem runBytes_append_ok (l1 l2 : List Nat) (st s2 : VState) :
    runBytes st (l1 ++ l2) = .ok s2 ↔
      ∃ s1, runBytes st l1 = .ok s1 ∧ runBytes s1 l2 = .ok s2 := by
  rw [runBytes_append]
  cases h1 : runBytes st l1 with
  | ok s1 =>
    cases h2 : runBytes s1 l2 with
    | ok s3 => simp [shiftErr, h2]
    | error off => simp [shiftErr, h2]
  | error off => simp

/-- The encoding of a valid Unicode scalar value drives the automaton from
the clean state back to the clean state. -/
theorem runBytes_utf8_bytes (c : Nat) (h : isScalar c = true) :
    runBytes .clean (utf8_bytes c) = .ok .clean := by
  have hc : c ≤ 0x10FFFF ∧ (c < 0xD800 ∨ 0xDFFF < c) := by
    simpa [isScalar] using h
  by_cases h1 : c < 0x80
  · rw [utf8_bytes, if_pos h1]
    simp [runBytes, stepByte_clean_ascii c (by omega)]
  · by_cases h2 : c < 0x800
    · rw [utf8_bytes, if_neg h1, if_pos h2]
      have e0 := stepByte_clean_lead2 (0xC0 + c / 0x40) (by omega) (by omega)
      have e1 := stepByte_mid_last 0x80 0xBF (0x80 + c % 0x40) (by omega) (by omega)
      simp [runBytes, e0, e1]
    · by_cases h3 : c < 0x10000
      · rw [utf8_bytes, if_neg h1, if_neg h2, if_pos h3]
        have e1 : stepByte (.mid 2 0x80 0xBF) (0x80 + c / 0x40 % 0x40)
            = some (.mid 1 0x80 0xBF) :=
          stepByte_mid_more 2 0x80 0xBF _ (by omega) (by omega) (by omega)
        have e1a : stepByte (.mid 2 0xA0 0xBF) (0x80 + c / 0x40 % 0x40)
            = some (.mid 1 0x80 0xBF) → True := fun _ => trivial
        have e2 := stepByte_mid_last 0x80 0xBF (0x80 + c % 0x40) (by omega) (by omega)
        by_cases hE0 : c < 0x1000
        · have hl : 0xE0 + c / 0x1000 = 0xE0 := by omega
          have f1 : stepByte (.mid 2 0xA0 0xBF) (0x80 + c / 0x40 % 0x40)
              = some (.mid 1 0x80 0xBF) :=
            stepByte_mid_more 2 0xA0 0xBF _ (by omega) (by omega) (by omega)
          simp [runBytes, hl, stepByte_clean_E0, f1, e2]
        · by_cases hED : 0xD000 ≤ c ∧ c ≤ 0xDFFF
          · have hl : 0xE0 + c / 0x1000 = 0xED := by omega
            have f1 : stepByte (.mid 2 0x80 0x9F) (0x80 + c / 0x40 % 0x40)
                = some (.mid 1 0x80 0xBF) :=
              stepByte_mid_more 2 0x80 0x9F _ (by omega) (by omega) (by omega)
            simp [runBytes, hl, stepByte_clean_ED, f1, e2]
          · have e0 := stepByte_clean_lead3 (0xE0 + c / 0x1000) (by omega)
              (by omega) (by omega)
            simp [runBytes, e0, e1, e2]
      · rw [utf8_bytes, if_neg h1, if_neg h2, if_neg h3]
        have e2 : stepByte (.mid 2 0x80 0xBF) (0x80 + c / 0x40 % 0x40)
            = some (.mid 1 0x80 0xBF) :=
          stepByte_mid_more 2 0x80 0xBF _ (by omega) (by omega) (by omega)
        have e3 := stepByte_mid_last 0x80 0xBF (0x80 + c % 0x40) (by omega) (by omega)
        by_cases hF0 : c < 0x40000
        · have hl : 0xF0 + c / 0x40000 = 0xF0 := by omega
          have f1 : stepByte (.mid 3 0x90 0xBF) (0x80 + c / 0x1000 % 0x40)
              = some (.mid 2 0x80 0xBF) :=
            stepByte_mid_more 3 0x90 0xBF _ (by omega) (by omega) (by omega)
          simp [runBytes, hl, stepByte_clean_F0, f1, e2, e3]
        · by_cases hF4 : 0x100000 ≤ c
          · have hl : 0xF0 + c / 0x40000 = 0xF4 := by omega
            have f1 : stepByte (.mid 3 0x80 0x8F) (0x80 + c / 0x1000 % 0x40)
                = some (.mid 2 0x80 0xBF) :=
              stepByte_mid_more 3 0x80 0x8F _ (by omega) (by omega) (by omega)
            simp [runBytes, hl, stepByte_clean_F4, f1, e2, e3]
          · have e0 := stepByte_clean_lead4 (0xF0 + c / 0x40000) (by omega) (by omega)
            have f1 : stepByte (.mid 3 0x80 0xBF) (0x80 + c / 0x1000 % 0x40)
                = some (.mid 2 0x80 0xBF) :=
              stepByte_mid_more 3 0x80 0xBF _ (by omega) (by omega) (by omega)
            simp [runBytes, e0, f1, e2, e3]

/-- One-shot validity is exactly: the automaton runs clean to clean. -/
theorem is_valid_utf8_iff (s : List Nat) :
    is_valid_utf8 s = true ↔ runBytes .clean s = .ok .clean := by
  unfold is_valid_utf8 validate_utf8_step utf8_clean
  cases hr : runBytes .clean s with
  | ok v =>
    cases v with
    | clean => simp [hr]
    | mid n lo hi => simp [hr]
  | error off => simp [hr]

/-- The concatenated encodings of valid scalars run clean to clean. -/
theorem runBytes_flatten_scalars (cs : List Nat)
    (h : ∀ c ∈ cs, isScalar c = true) :
    runBytes .clean (cs.map utf8_bytes).flatten = .ok .clean := by
  induction cs with
  | nil => simp [runBytes]
  | cons c rest ih =>
    simp only [List.map_cons, List.flatten_cons]
    rw [runBytes_append, runBytes_utf8_bytes c (h c (by simp))]
    show shiftErr (utf8_bytes c).length
      (runBytes .clean (rest.map utf8_bytes).flatten) = .ok .clean
    rw [ih (fun d hd => h d (by simp [hd]))]
    rfl

/-- A sequence of streaming calls succeeds chunk by chunk exactly as the
automaton runs over the concatenation. -/
theorem runChunks_of_runBytes (chunks : List (List Nat)) (v w : VState)
    (h : runBytes v chunks.flatten = .ok w) :
    runChunks chunks (.ok v) = (true, .ok w) := by
  induction chunks generalizing v with
  | nil =>
    simp only [List.flatten_nil, runBytes] at h
    cases h
    rfl
  | cons c rest ih =>
    rw [List.flatten_cons] at h
    obtain ⟨s1, h1, h2⟩ := (runBytes_append_ok c rest.flatten v w).mp h
    have hstep : validate_utf8_step c (.ok v) = (true, .ok s1) := by
      simp [validate_utf8_step, h1]
    rw [runChunks, hstep]
    exact ih s1 h2

/-- C1: for every valid UTF-8 byte string `s` and every split point `k`,
running the streaming validator on `s[0:k]` from the clean state and then on
`s[k:]` with the carried-over state accepts the first chunk and yields the
same final result and final state as validating `s` in a single call from
the clean state. -/
theorem C1_split_invariance (s : List Nat) (k : Nat)
    (h : is_valid_utf8 s = true) :
    (validate_utf8_step (s.take k) utf8_clean).1 = true ∧
    validate_utf8_step (s.drop k) (validate_utf8_step (s.take k) utf8_clean).2
      = validate_utf8_step s utf8_clean := by
  have hs : runBytes .clean s = .ok .clean := (is_valid_utf8_iff s).mp h
  have hsplit : s.take k ++ s.drop k = s := List.take_append_drop k s
  have hs' : runBytes .clean (s.take k ++ s.drop k) = .ok .clean := by
    rw [hsplit]; exact hs
  obtain ⟨s1, h1, h2⟩ := (runBytes_append_ok _ _ _ _).mp hs'
  have hstep1 : validate_utf8_step (s.take k) utf8_clean = (true, .ok s1) := by
    simp [validate_utf8_step, utf8_clean, h1]
  have hstep2 : validate_utf8_step (s.drop k) (.ok s1) = (true, .ok .clean) := by
    simp [validate_utf8_step, h2]
  have hstepS : validate_utf8_step s utf8_clean = (true, .ok .clean) := by
    simp [validate_utf8_step, utf8_clean, hs]
  refine ⟨by rw [hstep1], ?_⟩
  rw [hstep1, hstepS]
  exact hstep2

/-- Witness for C1 at the valid string [0x41, 0xC3, 0xA9] split in the
middle of the two-byte sequence. -/
theorem C1_split_invariance_witness :
    is_valid_utf8 [0x41, 0xC3, 0xA9] = true ∧
    ((validate_utf8_step ([0x41, 0xC3, 0xA9].take 2) utf8_clean).1 = true ∧
     validate_utf8_step ([0x41, 0xC3, 0xA9].drop 2)
         (validate_utf8_step ([0x41, 0xC3, 0xA9].take 2) utf8_clean).2
       = validate_utf8_step [0x41, 0xC3, 0xA9] utf8_clean) :=
  ⟨by decide, C1_split_invariance [0x41, 0xC3, 0xA9] 2 (by decide)⟩

/-- C2: for every codepoint in [0, 0x10FFFF] excluding the surrogate range,
appending its encoding to an empty string succeeds and the one-shot
validator accepts the resulting bytes. -/
theorem C2_encode_validate (c : Nat) (h1 : c ≤ 0x10FFFF)
    (h2 : ¬(0xD800 ≤ c ∧ c ≤ 0xDFFF)) :
    unicode_codepoint_to_utf8_append [] c = some (utf8_bytes c) ∧
    is_valid_utf8 (utf8_bytes c) = true := by
  have hsc : isScalar c = true := by
    simp only [isScalar, decide_eq_true_eq]
    omega
  exact ⟨by simp [unicode_codepoint_to_utf8_append, hsc],
    (is_valid_utf8_iff _).mpr (runBytes_utf8_bytes c hsc)⟩

/-- Witness for C2 at the codepoint U+1F600. -/
theorem C2_encode_validate_witness :
    unicode_codepoint_to_utf8_append [] 0x1F600 = some (utf8_bytes 0x1F600) ∧
    is_valid_utf8 (utf8_bytes 0x1F600) = true :=
  C2_encode_validate 0x1F600 (by decide) (by decide)

/-- C4: the encoder signals a distinct failure, appending no bytes, on every
argument that is a surrogate or lies above 0x10FFFF. -/
theorem C4_invalid_codepoint (result : List Nat) (c : Nat)
    (h : (0xD800 ≤ c ∧ c ≤ 0xDFFF) ∨ 0x10FFFF < c) :
    unicode_codepoint_to_utf8_append result c = none := by
  have hns : ¬ (c ≤ 0x10FFFF ∧ (c < 0xD800 ∨ 0xDFFF < c)) := by omega
  simp [unicode_codepoint_to_utf8_append, isScalar, hns]

/-- Witness for C4 at the surrogate 0xD800. -/
theorem C4_invalid_codepoint_witness :
    unicode_codepoint_to_utf8_append [] 0xD800 = none :=
  C4_invalid_codepoint [] 0xD800 (Or.inl (by decide))

/-- The lead byte of a three-byte encoding sends the clean state to a
mid-state whose narrowed range admits the first continuation byte. -/
theorem lead3_spec (c : Nat) (hc1 : 0x800 ≤ c) (hc2 : c < 0x10000)
    (hs : c < 0xD800 ∨ 0xDFFF < c) :
    ∃ lo0 hi0, stepByte .clean (0xE0 + c / 0x1000) = some (.mid 2 lo0 hi0) ∧
      lo0 ≤ 0x80 + c / 0x40 % 0x40 ∧ 0x80 + c / 0x40 % 0x40 ≤ hi0 := by
  by_cases hE0 : c < 0x1000
  · refine ⟨0xA0, 0xBF, ?_, by omega, by omega⟩
    rw [show 0xE0 + c / 0x1000 = 0xE0 by omega]
    exact stepByte_clean_E0
  · by_cases hED : 0xD000 ≤ c ∧ c ≤ 0xDFFF
    · refine ⟨0x80, 0x9F, ?_, by omega, by omega⟩
      rw [show 0xE0 + c / 0x1000 = 0xED by omega]
      exact stepByte_clean_ED
    · exact ⟨0x80, 0xBF,
        stepByte_clean_lead3 _ (by omega) (by omega) (by omega), by omega, by omega⟩

/-- The lead byte of a four-byte encoding sends the clean state to a
mid-state whose narrowed range admits the first continuation byte. -/
theorem lead4_spec (c : Nat) (hc1 : 0x10000 ≤ c) (hc2 : c ≤ 0x10FFFF) :
    ∃ lo0 hi0, stepByte .clean (0xF0 + c / 0x40000) = some (.mid 3 lo0 hi0) ∧
      lo0 ≤ 0x80 + c / 0x1000 % 0x40 ∧ 0x80 + c / 0x1000 % 0x40 ≤ hi0 := by
  by_cases hF0 : c < 0x40000
  · refine ⟨0x90, 0xBF, ?_, by omega, by omega⟩
    rw [show 0xF0 + c / 0x40000 = 0xF0 by omega]
    exact stepByte_clean_F0
  · by_cases hF4 : 0x100000 ≤ c
    · refine ⟨0x80, 0x8F, ?_, by omega, by omega⟩
      rw [show 0xF0 + c / 0x40000 = 0xF4 by omega]
      exact stepByte_clean_F4
    · exact ⟨0x80, 0xBF,
        stepByte_clean_lead4 _ (by omega) (by omega), by omega, by omega⟩

/-- A proper nonempty prefix of the encoding of a valid scalar drives the
clean state to a mid-sequence (non-clean) state without any violation. -/
theorem runBytes_take_mid (c k : Nat) (hsc : isScalar c = true) (hk0 : 0 < k)
    (hklen : k < (utf8_bytes c).length) :
    ∃ n lo hi, runBytes .clean ((utf8_bytes c).take k) = .ok (.mid n lo hi) := by
  have hc : c ≤ 0x10FFFF ∧ (c < 0xD800 ∨ 0xDFFF < c) := by
    simpa [isScalar] using hsc
  by_cases h1 : c < 0x80
  · rw [utf8_bytes, if_pos h1] at hklen
    simp at hklen
    omega
  · by_cases h2 : c < 0x800
    · rw [utf8_bytes, if_neg h1, if_pos h2] at hklen ⊢
      simp only [List.length_cons, List.length_nil] at hklen
      obtain rfl : k = 1 := by omega
      have e0 := stepByte_clean_lead2 (0xC0 + c / 0x40) (by omega) (by omega)
      exact ⟨1, 0x80, 0xBF, by simp [List.take, runBytes, e0]⟩
    · by_cases h3 : c < 0x10000
      · rw [utf8_bytes, if_neg h1, if_neg h2, if_pos h3] at hklen ⊢
        simp only [List.length_cons, List.length_nil] at hklen
        obtain ⟨lo0, hi0, e0, hl, hh⟩ := lead3_spec c (by omega) h3 hc.2
        have hk : k = 1 ∨ k = 2 := by omega
        rcases hk with rfl | rfl
        · exact ⟨2, lo0, hi0, by simp [List.take, runBytes, e0]⟩
        · have f1 : stepByte (.mid 2 lo0 hi0) (0x80 + c / 0x40 % 0x40)
              = some (.mid 1 0x80 0xBF) :=
            stepByte_mid_more 2 lo0 hi0 _ hl hh (by omega)
          exact ⟨1, 0x80, 0xBF, by simp [List.take, runBytes, e0, f1]⟩
      · rw [utf8_bytes, if_neg h1, if_neg h2, if_neg h3] at hklen ⊢
        simp only [List.length_cons, List.length_nil] at hklen
        obtain ⟨lo0, hi0, e0, hl, hh⟩ := lead4_spec c (by omega) (by omega)
        have f1 : stepByte (.mid 3 lo0 hi0) (0x80 + c / 0x1000 % 0x40)
            = some (.mid 2 0x80 0xBF) :=
          stepByte_mid_more 3 lo0 hi0 _ hl hh (by omega)
        have f2 : stepByte (.mid 2 0x80 0xBF) (0x80 + c / 0x40 % 0x40)
            = some (.mid 1 0x80 0xBF) :=
          stepByte_mid_more 2 0x80 0xBF _ (by omega) (by omega) (by omega)
        have hk : k = 1 ∨ k = 2 ∨ k = 3 := by omega
        rcases hk with rfl | rfl | rfl
        · exact ⟨3, lo0, hi0, by simp [List.take, runBytes, e0]⟩
        · exact ⟨2, 0x80, 0xBF, by simp [List.take, runBytes, e0, f1]⟩
        · exact ⟨1, 0x80, 0xBF, by simp [List.take, runBytes, e0, f1, f2]⟩

/-- C5: the streaming validator's state is the clean (zero) value before the
first chunk; after any sequence of successful calls whose concatenated input
is a whole number of valid scalar encodings the state is clean again; and a
successful call whose input ends inside a multi-byte encoding leaves a
non-clean mid-sequence state, so a non-clean state at declared end-of-stream
signals exactly a truncated sequence. -/
theorem C5_state_invariant :
    utf8_clean = Utf8State.ok VState.clean ∧
    (∀ (chunks : List (List Nat)) (cs : List Nat),
        (∀ c ∈ cs, isScalar c = true) →
        chunks.flatten = (cs.map utf8_bytes).flatten →
        runChunks chunks utf8_clean = (true, utf8_clean)) ∧
    (∀ (cs : List Nat) (c k : Nat),
        (∀ d ∈ cs, isScalar d = true) → isScalar c = true →
        0 < k → k < (utf8_bytes c).length →
        ∃ n lo hi,
          validate_utf8_step
              ((cs.map utf8_bytes).flatten ++ (utf8_bytes c).take k) utf8_clean
            = (true, .ok (.mid n lo hi)) ∧ Utf8State.ok (.mid n lo hi) ≠ utf8_clean) := by
  refine ⟨rfl, ?_, ?_⟩
  · intro chunks cs hcs hflat
    have hr : runBytes .clean chunks.flatten = .ok .clean := by
      rw [hflat]
      exact runBytes_flatten_scalars cs hcs
    exact runChunks_of_runBytes chunks .clean .clean hr
  · intro cs c k hcs hsc hk0 hklen
    obtain ⟨n, lo, hi, hmid⟩ := runBytes_take_mid c k hsc hk0 hklen
    refine ⟨n, lo, hi, ?_, by simp [utf8_clean]⟩
    have hr : runBytes .clean ((cs.map utf8_bytes).flatten ++ (utf8_bytes c).take k)
        = .ok (.mid n lo hi) := by
      rw [runBytes_append, runBytes_flatten_scalars cs hcs]
      show shiftErr _ (runBytes .clean ((utf8_bytes c).take k)) = _
      rw [hmid]
      rfl
    simp [validate_utf8_step, utf8_clean, hr]

/-- Witness for C5: the chunks [[0xC3], [0xA9]] concatenate to the encoding
of U+00E9, and the one-byte prefix of that encoding leaves a mid state. -/
theorem C5_state_invariant_witness :
    runChunks [[0xC3], [0xA9]] utf8_clean = (true, utf8_clean) ∧
    ∃ n lo hi,
      validate_utf8_step
          ((([] : List Nat).map utf8_bytes).flatten ++ (utf8_bytes 0xE9).take 1)
          utf8_clean
        = (true, .ok (.mid n lo hi)) ∧ Utf8State.ok (.mid n lo hi) ≠ utf8_clean :=
  ⟨C5_state_invariant.2.1 [[0xC3], [0xA9]] [0xE9] (by decide) (by decide),
   C5_state_invariant.2.2 [] 0xE9 1 (by decide) (by decide) (by decide) (by decide)⟩

/-- C6: the encoder produces 1, 2, 3 or 4 bytes according to the magnitude
of the scalar, with the documented lead-byte bit patterns, continuation
bytes in [0x80, 0xBF], and the scalar's bits distributed most-significant
group first, 6 bits per continuation byte (expressed by the decode
identity). -/
theorem C6_encoding_shape (c : Nat) (h : isScalar c = true) :
    (c ≤ 0x7F → utf8_bytes c = [c]) ∧
    (0x80 ≤ c → c ≤ 0x7FF → ∃ b0 b1, utf8_bytes c = [b0, b1] ∧
      0xC0 ≤ b0 ∧ b0 ≤ 0xDF ∧ 0x80 ≤ b1 ∧ b1 ≤ 0xBF ∧
      (b0 - 0xC0) * 0x40 + (b1 - 0x80) = c) ∧
    (0x800 ≤ c → c ≤ 0xFFFF → ∃ b0 b1 b2, utf8_bytes c = [b0, b1, b2] ∧
      0xE0 ≤ b0 ∧ b0 ≤ 0xEF ∧ 0x80 ≤ b1 ∧ b1 ≤ 0xBF ∧ 0x80 ≤ b2 ∧ b2 ≤ 0xBF ∧
      (b0 - 0xE0) * 0x1000 + (b1 - 0x80) * 0x40 + (b2 - 0x80) = c) ∧
    (0x10000 ≤ c → c ≤ 0x10FFFF → ∃ b0 b1 b2 b3, utf8_bytes c = [b0, b1, b2, b3] ∧
      0xF0 ≤ b0 ∧ b0 ≤ 0xF7 ∧ 0x80 ≤ b1 ∧ b1 ≤ 0xBF ∧ 0x80 ≤ b2 ∧ b2 ≤ 0xBF ∧
      0x80 ≤ b3 ∧ b3 ≤ 0xBF ∧
      (b0 - 0xF0) * 0x40000 + (b1 - 0x80) * 0x1000 + (b2 - 0x80) * 0x40
        + (b3 - 0x80) = c) := by
  refine ⟨?_, ?_, ?_, ?_⟩
  · intro hb
    rw [utf8_bytes, if_pos (by omega)]
  · intro ha hb
    rw [utf8_bytes, if_neg (by omega), if_pos (by omega)]
    exact ⟨_, _, rfl, by omega, by omega, by omega, by omega, by omega⟩
  · intro ha hb
    rw [utf8_bytes, if_neg (by omega), if_neg (by omega), if_pos (by omega)]
    exact ⟨_, _, _, rfl, by omega, by omega, by omega, by omega, by omega,
      by omega, by omega⟩
  · intro ha hb
    rw [utf8_bytes, if_neg (by omega), if_neg (by omega), if_neg (by omega)]
    exact ⟨_, _, _, _, rfl, by omega, by omega, by omega, by omega, by omega,
      by omega, by omega, by omega, by omega⟩

/-- Witness for C6 at the codepoint U+1F600. -/
theorem C6_encoding_shape_witness :
    ∃ b0 b1 b2 b3, utf8_bytes 0x1F600 = [b0, b1, b2, b3] ∧
      0xF0 ≤ b0 ∧ b0 ≤ 0xF7 ∧ 0x80 ≤ b1 ∧ b1 ≤ 0xBF ∧ 0x80 ≤ b2 ∧ b2 ≤ 0xBF ∧
      0x80 ≤ b3 ∧ b3 ≤ 0xBF ∧
      (b0 - 0xF0) * 0x40000 + (b1 - 0x80) * 0x1000 + (b2 - 0x80) * 0x40
        + (b3 - 0x80) = 0x1F600 :=
  (C6_encoding_shape 0x1F600 (by decide)).2.2.2 (by decide) (by decide)

/-- Counterexample to C7 as stated: the streaming validator on [0xE0, 0x80]
does not return true — the byte 0x80 violates the narrowed range
[0xA0, 0xBF] required after the lead 0xE0, so the call fails immediately. -/
theorem C7_streaming_E0_80_counterexample :
    (validate_utf8_step [0xE0, 0x80] utf8_clean).1 = false := by decide

/-- C7 (amended): the one-shot validator rejects [0xC0, 0x80] (overlong NUL,
failure offset 0), [0xED, 0xA0, 0x80] (encoded surrogate) and [0xFF]
(invalid lead byte); the streaming call on [0xE0, 0x80] also returns false,
immediately, with failure offset 1, because the first continuation byte
after the lead 0xE0 must lie in [0xA0, 0xBF]. -/
theorem C7_rejection_vectors :
    is_valid_utf8 [0xC0, 0x80] = false ∧
    validate_utf8_step [0xC0, 0x80] utf8_clean = (false, .fail 0) ∧
    is_valid_utf8 [0xED, 0xA0, 0x80] = false ∧
    is_valid_utf8 [0xFF] = false ∧
    validate_utf8_step [0xE0, 0x80] utf8_clean = (false, .fail 1) ∧
    is_valid_utf8 [0xE0, 0x80] = false := by decide

/-- A failing automaton run pinpoints the first offending byte: everything
before the failure offset runs cleanly and the byte at the offset is the
violation. -/
theorem runBytes_error_spec (l : List Nat) (v : VState) (off : Nat)
    (h : runBytes v l = .error off) :
    off < l.length ∧ ∃ vm, runBytes v (l.take off) = .ok vm ∧
      stepByte vm (l.getD off 0) = none := by
  induction l generalizing v off with
  | nil => simp [runBytes] at h
  | cons b rest ih =>
    rw [runBytes] at h
    cases hs : stepByte v b with
    | none =>
      simp only [hs] at h
      cases h
      exact ⟨by simp, v, by simp [runBytes], by simpa using hs⟩
    | some v' =>
      simp only [hs] at h
      cases hr : runBytes v' rest with
      | ok s2 => rw [hr] at h; cases h
      | error o =>
        rw [hr] at h
        cases h
        obtain ⟨hlt, vm, hm1, hm2⟩ := ih v' o hr
        refine ⟨by simp; omega, vm, ?_, by simpa using hm2⟩
        rw [List.take_succ_cons, runBytes]
        simp [hs, hm1]

/-- C8: whenever a streaming call started in a validating state rejects its
chunk, the resulting state is the failure offset of the first offending
byte, measured from the start of that chunk: the bytes before the offset
validate cleanly and the byte at the offset is the violation. -/
theorem C8_failure_offset (chunk : List Nat) (v : VState) (st' : Utf8State)
    (h : validate_utf8_step chunk (.ok v) = (false, st')) :
    ∃ off, st' = .fail off ∧ off < chunk.length ∧
      ∃ vm, runBytes v (chunk.take off) = .ok vm ∧
        stepByte vm (chunk.getD off 0) = none := by
  rw [validate_utf8_step] at h
  cases hr : runBytes v chunk with
  | ok v' =>
    simp only [hr] at h
    exact absurd (congrArg Prod.fst h) (by simp)
  | error off =>
    simp only [hr] at h
    have hst : st' = .fail off := by
      have h2 := congrArg Prod.snd h
      simpa using h2.symm
    subst hst
    obtain ⟨hlt, vm, hm1, hm2⟩ := runBytes_error_spec chunk v off hr
    exact ⟨off, rfl, hlt, vm, hm1, hm2⟩

/-- Witness for C8 at the chunk [0x41, 0xFF] from the clean state. -/
theorem C8_failure_offset_witness :
    validate_utf8_step [0x41, 0xFF] (.ok .clean) = (false, .fail 1) ∧
    ∃ off, (Utf8State.fail 1) = .fail off ∧ off < ([0x41, 0xFF] : List Nat).length ∧
      ∃ vm, runBytes .clean (([0x41, 0xFF] : List Nat).take off) = .ok vm ∧
        stepByte vm (([0x41, 0xFF] : List Nat).getD off 0) = none :=
  ⟨by decide, C8_failure_offset [0x41, 0xFF] .clean (.fail 1) (by decide)⟩

/-! ### UTF-16 to UTF-8 conversion -/

/-- Conversion state of the UTF-16 converter, per spec section 3: at most a
leftover first byte of a half-received code unit, and at most a pending high
surrogate awaiting its low half. The clean state holds neither. -/
structure Utf16State where
  leftover : Option Nat
  pendingHigh : Option Nat
deriving DecidableEq

/-- The clean (zero) conversion state the caller initializes. -/
def utf16_clean : Utf16State := ⟨none, none⟩

/-- Assembles a 16-bit code unit from two bytes, most-significant byte first
for big-endian input, least-significant first for little-endian input. -/
def mkUnit (be : Bool) (b0 b1 : Nat) : Nat :=
  if be then b0 * 256 + b1 else b1 * 256 + b0

/-- Modelled from the spec: the unit-processing core shared by
`utf16be_to_utf8_append` and `utf16le_to_utf8_append`
(src/include/string.hpp:836-858), whose bodies are in string.cpp, absent
from the sources. Per spec section 4.3: pairs of bytes are assembled into
code units; a unit outside the surrogate block is encoded directly; a high
surrogate becomes pending and must be immediately followed by a low
surrogate, which combines into a supplementary codepoint; a mispaired
surrogate fails the call; a trailing odd byte is kept as leftover. Output
bytes are appended to `result`. -/
def utf16_run (be : Bool) (result : List Nat) (pending : Option Nat) :
    List Nat → Bool × List Nat × Utf16State
  | [] => (true, result, ⟨none, pending⟩)
  | [b] => (true, result, ⟨some b, pending⟩)
  | b0 :: b1 :: rest =>
    match pending with
    | some hi =>
      if 0xDC00 ≤ mkUnit be b0 b1 ∧ mkUnit be b0 b1 ≤ 0xDFFF then
        utf16_run be
          (result ++
            utf8_bytes ((hi - 0xD800) * 0x400 + (mkUnit be b0 b1 - 0xDC00) + 0x10000))
          none rest
      else (false, result, ⟨none, none⟩)
    | none =>
      if 0xD800 ≤ mkUnit be b0 b1 ∧ mkUnit be b0 b1 ≤ 0xDBFF then
        utf16_run be result (some (mkUnit be b0 b1)) rest
      else if 0xDC00 ≤ mkUnit be b0 b1 ∧ mkUnit be b0 b1 ≤ 0xDFFF then
        (false, result, ⟨none, none⟩)
      else utf16_run be (result ++ utf8_bytes (mkUnit be b0 b1)) none rest

/-- Modelled from the spec: the common entry of `utf16be_to_utf8_append` and
`utf16le_to_utf8_append`. A leftover byte from the previous chunk is
conceptually prepended to the chunk before assembling units. -/
def utf16_to_utf8_append (be : Bool) (result : List Nat) (data : List Nat)
    (st : Utf16State) : Bool × List Nat × Utf16State :=
  match st.leftover with
  | some b => utf16_run be result st.pendingHigh (b :: data)
  | none => utf16_run be result st.pendingHigh data

/-- Modelled from the spec: `utf16be_to_utf8_append`
(src/include/string.hpp:855). -/
def utf16be_to_utf8_append (result data : List Nat) (st : Utf16State) :
    Bool × List Nat × Utf16State :=
  utf16_to_utf8_append true result data st

/-- Modelled from the spec: `utf16le_to_utf8_append`
(src/include/string.hpp:858). -/
def utf16le_to_utf8_append (result data : List Nat) (st : Utf16State) :
    Bool × List Nat × Utf16State :=
  utf16_to_utf8_append false result data st

/-- The two bytes of a 16-bit code unit in the given byte order. -/
def unitBytes (be : Bool) (u : Nat) : List Nat :=
  if be then [u / 256, u % 256] else [u % 256, u / 256]

/-- The converter only appends: its result component is the prior contents
followed by the bytes it would produce into an empty buffer, and the
success flag and final state do not depend on the prior contents. -/
theorem utf16_run_frame_aux :
    ∀ (n : Nat) (data : List Nat), data.length ≤ n →
    ∀ (be : Bool) (pending : Option Nat) (result : List Nat),
    utf16_run be result pending data
      = ((utf16_run be [] pending data).1,
         result ++ (utf16_run be [] pending data).2.1,
         (utf16_run be [] pending data).2.2) := by
  intro n
  induction n with
  | zero =>
    intro data hlen be pending result
    cases data with
    | nil => simp [utf16_run]
    | cons a t => simp at hlen
  | succ n ih =>
    intro data hlen be pending result
    match data with
    | [] => simp [utf16_run]
    | [b] => simp [utf16_run]
    | b0 :: b1 :: rest =>
      have hr : rest.length ≤ n := by
        simp only [List.length_cons] at hlen
        omega
      cases pending with
      | some hi =>
        by_cases hu : 0xDC00 ≤ mkUnit be b0 b1 ∧ mkUnit be b0 b1 ≤ 0xDFFF
        · simp only [utf16_run, if_pos hu]
          rw [ih rest hr be none
              (result ++ utf8_bytes ((hi - 0xD800) * 0x400 + (mkUnit be b0 b1 - 0xDC00) + 0x10000)),
            ih rest hr be none
              ([] ++ utf8_bytes ((hi - 0xD800) * 0x400 + (mkUnit be b0 b1 - 0xDC00) + 0x10000))]
          simp [List.append_assoc]
        · simp only [utf16_run, if_neg hu]
          simp
      | none =>
        by_cases h1 : 0xD800 ≤ mkUnit be b0 b1 ∧ mkUnit be b0 b1 ≤ 0xDBFF
        · simp only [utf16_run, if_pos h1]
          rw [ih rest hr be (some (mkUnit be b0 b1)) result]
        · by_cases h2 : 0xDC00 ≤ mkUnit be b0 b1 ∧ mkUnit be b0 b1 ≤ 0xDFFF
          · simp only [utf16_run, if_neg h1, if_pos h2]
            simp
          · simp only [utf16_run, if_neg h1, if_neg h2]
            rw [ih rest hr be none (result ++ utf8_bytes (mkUnit be b0 b1)),
              ih rest hr be none ([] ++ utf8_bytes (mkUnit be b0 b1))]
            simp [List.append_assoc]

theorem utf16_run_frame (be : Bool) (pending : Option Nat)
    (data result : List Nat) :
    utf16_run be result pending data
      = ((utf16_run be [] pending data).1,
         result ++ (utf16_run be [] pending data).2.1,
         (utf16_run be [] pending data).2.2) :=
  utf16_run_frame_aux data.length data le_rfl be pending result

/-- C9: for every call to the UTF-16 converters, in either byte order and
whatever the returned flag, the prior contents of the output remain an
unchanged prefix of the result — the converter only appends, and neither
the flag nor the final state depends on what was already there. -/
theorem C9_append_only (result data : List Nat) (st : Utf16State) :
    ((utf16be_to_utf8_append result data st).2.1
        = result ++ (utf16be_to_utf8_append [] data st).2.1 ∧
     (utf16be_to_utf8_append result data st).1
        = (utf16be_to_utf8_append [] data st).1 ∧
     (utf16be_to_utf8_append result data st).2.2
        = (utf16be_to_utf8_append [] data st).2.2) ∧
    ((utf16le_to_utf8_append result data st).2.1
        = result ++ (utf16le_to_utf8_append [] data st).2.1 ∧
     (utf16le_to_utf8_append result data st).1
        = (utf16le_to_utf8_append [] data st).1 ∧
     (utf16le_to_utf8_append result data st).2.2
        = (utf16le_to_utf8_append [] data st).2.2) := by
  constructor
  · unfold utf16be_to_utf8_append utf16_to_utf8_append
    cases hl : st.leftover with
    | some b =>
      simp only [hl]
      rw [utf16_run_frame]
      exact ⟨rfl, rfl, rfl⟩
    | none =>
      simp only [hl]
      rw [utf16_run_frame]
      exact ⟨rfl, rfl, rfl⟩
  · unfold utf16le_to_utf8_append utf16_to_utf8_append
    cases hl : st.leftover with
    | some b =>
      simp only [hl]
      rw [utf16_run_frame]
      exact ⟨rfl, rfl, rfl⟩
    | none =>
      simp only [hl]
      rw [utf16_run_frame]
      exact ⟨rfl, rfl, rfl⟩

/-- A correctly paired high and low surrogate in a single chunk, from the
clean state, appends exactly the UTF-8 encoding of the combined codepoint
and returns to the clean state. -/
theorem utf16_pair_ok (be : Bool) (result : List Nat) (hi lo : Nat)
    (hh1 : 0xD800 ≤ hi) (hh2 : hi ≤ 0xDBFF)
    (hl1 : 0xDC00 ≤ lo) (hl2 : lo ≤ 0xDFFF) :
    utf16_to_utf8_append be result (unitBytes be hi ++ unitBytes be lo) utf16_clean
      = (true, result ++ utf8_bytes ((hi - 0xD800) * 0x400 + (lo - 0xDC00) + 0x10000),
         utf16_clean) := by
  have c1 : 0xD800 ≤ hi ∧ hi ≤ 0xDBFF := ⟨hh1, hh2⟩
  have c3 : 0xDC00 ≤ lo ∧ lo ≤ 0xDFFF := ⟨hl1, hl2⟩
  cases be with
  | true =>
    have m1 : mkUnit true (hi / 256) (hi % 256) = hi := by
      simp only [mkUnit, if_pos trivial]
      omega
    have m2 : mkUnit true (lo / 256) (lo % 256) = lo := by
      simp only [mkUnit, if_pos trivial]
      omega
    simp [unitBytes, utf16_to_utf8_append, utf16_clean, utf16_run, m1, m2, c1, c3]
  | false =>
    have m1 : mkUnit false (hi % 256) (hi / 256) = hi := by
      simp only [mkUnit, if_neg Bool.false_ne_true]
      omega
    have m2 : mkUnit false (lo % 256) (lo / 256) = lo := by
      simp only [mkUnit, if_neg Bool.false_ne_true]
      omega
    simp [unitBytes, utf16_to_utf8_append, utf16_clean, utf16_run, m1, m2, c1, c3]

/-- A high surrogate followed by a unit that is not a low surrogate makes
the call fail. -/
theorem utf16_unpaired_high (be : Bool) (result : List Nat) (hi u2 : Nat)
    (hh1 : 0xD800 ≤ hi) (hh2 : hi ≤ 0xDBFF)
    (hu : ¬ (0xDC00 ≤ u2 ∧ u2 ≤ 0xDFFF)) (hu2 : u2 < 0x10000) :
    (utf16_to_utf8_append be result (unitBytes be hi ++ unitBytes be u2)
        utf16_clean).1 = false := by
  have c1 : 0xD800 ≤ hi ∧ hi ≤ 0xDBFF := ⟨hh1, hh2⟩
  cases be with
  | true =>
    have m1 : mkUnit true (hi / 256) (hi % 256) = hi := by
      simp only [mkUnit, if_pos trivial]
      omega
    have m2 : mkUnit true (u2 / 256) (u2 % 256) = u2 := by
      simp only [mkUnit, if_pos trivial]
      omega
    simp [unitBytes, utf16_to_utf8_append, utf16_clean, utf16_run, m1, m2, c1, hu]
  | false =>
    have m1 : mkUnit false (hi % 256) (hi / 256) = hi := by
      simp only [mkUnit, if_neg Bool.false_ne_true]
      omega
    have m2 : mkUnit false (u2 % 256) (u2 / 256) = u2 := by
      simp only [mkUnit, if_neg Bool.false_ne_true]
      omega
    simp [unitBytes, utf16_to_utf8_append, utf16_clean, utf16_run, m1, m2, c1, hu]

/-- A low surrogate with no pending high surrogate makes the call fail. -/
theorem utf16_unpaired_low (be : Bool) (result : List Nat) (lo : Nat)
    (hl1 : 0xDC00 ≤ lo) (hl2 : lo ≤ 0xDFFF) :
    (utf16_to_utf8_append be result (unitBytes be lo) utf16_clean).1 = false := by
  have c1 : ¬ (0xD800 ≤ lo ∧ lo ≤ 0xDBFF) := by omega
  have c2 : 0xDC00 ≤ lo ∧ lo ≤ 0xDFFF := ⟨hl1, hl2⟩
  cases be with
  | true =>
    have m1 : mkUnit true (lo / 256) (lo % 256) = lo := by
      simp only [mkUnit, if_pos trivial]
      omega
    simp [unitBytes, utf16_to_utf8_append, utf16_clean, utf16_run, m1, c1, c2]
  | false =>
    have m1 : mkUnit false (lo % 256) (lo / 256) = lo := by
      simp only [mkUnit, if_neg Bool.false_ne_true]
      omega
    simp [unitBytes, utf16_to_utf8_append, utf16_clean, utf16_run, m1, c1, c2]

/-- C3: a high surrogate immediately followed by a low surrogate is
converted to the UTF-8 encoding of ((high - 0xD800) << 10) + (low - 0xDC00)
+ 0x10000, in either byte order; in particular the little-endian bytes
[0x3D, 0xD8, 0x00, 0xDE] from the clean state append exactly
[0xF0, 0x9F, 0x98, 0x80], identical to the encoder's output for U+1F600;
and a high surrogate followed by a non-low-surrogate unit, or a low
surrogate with nothing pending, makes the call fail. -/
theorem C3_surrogate_pairs :
    (∀ (be : Bool) (result : List Nat) (hi lo : Nat),
        0xD800 ≤ hi → hi ≤ 0xDBFF → 0xDC00 ≤ lo → lo ≤ 0xDFFF →
        utf16_to_utf8_append be result (unitBytes be hi ++ unitBytes be lo)
            utf16_clean
          = (true,
             result ++ utf8_bytes ((hi - 0xD800) * 0x400 + (lo - 0xDC00) + 0x10000),
             utf16_clean)) ∧
    utf16le_to_utf8_append [] [0x3D, 0xD8, 0x00, 0xDE] utf16_clean
      = (true, [0xF0, 0x9F, 0x98, 0x80], utf16_clean) ∧
    unicode_codepoint_to_utf8_append [] 0x1F600 = some [0xF0, 0x9F, 0x98, 0x80] ∧
    (∀ (be : Bool) (result : List Nat) (hi u2 : Nat),
        0xD800 ≤ hi → hi ≤ 0xDBFF → ¬ (0xDC00 ≤ u2 ∧ u2 ≤ 0xDFFF) → u2 < 0x10000 →
        (utf16_to_utf8_append be result (unitBytes be hi ++ unitBytes be u2)
            utf16_clean).1 = false) ∧
    (∀ (be : Bool) (result : List Nat) (lo : Nat),
        0xDC00 ≤ lo → lo ≤ 0xDFFF →
        (utf16_to_utf8_append be result (unitBytes be lo) utf16_clean).1 = false) := by
  refine ⟨?_, by decide, by decide, ?_, ?_⟩
  · intro be result hi lo hh1 hh2 hl1 hl2
    exact utf16_pair_ok be result hi lo hh1 hh2 hl1 hl2
  · intro be result hi u2 hh1 hh2 hu hu2
    exact utf16_unpaired_high be result hi u2 hh1 hh2 hu hu2
  · intro be result lo hl1 hl2
    exact utf16_unpaired_low be result lo hl1 hl2

/-- Witness for C3: the surrogate pair U+D83D, U+DE00 (U+1F600) in both
general forms, plus the two failure shapes at concrete inputs. -/
theorem C3_surrogate_pairs_witness :
    utf16_to_utf8_append false [] (unitBytes false 0xD83D ++ unitBytes false 0xDE00)
        utf16_clean
      = (true,
         [] ++ utf8_bytes ((0xD83D - 0xD800) * 0x400 + (0xDE00 - 0xDC00) + 0x10000),
         utf16_clean) ∧
    (utf16_to_utf8_append false [] (unitBytes false 0xD83D ++ unitBytes false 0x41)
        utf16_clean).1 = false ∧
    (utf16_to_utf8_append false [] (unitBytes false 0xDE00) utf16_clean).1 = false :=
  ⟨C3_surrogate_pairs.1 false [] 0xD83D 0xDE00 (by decide) (by decide) (by decide)
      (by decide),
   C3_surrogate_pairs.2.2.2.1 false [] 0xD83D 0x41 (by decide) (by decide)
      (by decide) (by decide),
   C3_surrogate_pairs.2.2.2.2 false [] 0xDE00 (by decide) (by decide)⟩

/-! ### String-to-integer conversion (src/include/string.hpp:511-596)

`to_integral_impl` is a template over the destination integral type `T`;
the embedding abstracts `T` as its signedness flag and its
`numeric_limits` bounds, and performs the source's arithmetic on unbounded
`Int` — every intermediate value of the source fits in `T` thanks to the
guards, so this is exact. The `std::is_same_v<T, bool>` specialization
(string.hpp:514-521), which parses via `unsigned int` and collapses the
value to `w != 0`, is embedded separately as `to_integral_impl_bool`;
the enum branch (string.hpp:522-524) merely delegates to the underlying
integer type and needs no separate model. -/

/-- An integral destination type: `std::is_signed_v<T>`,
`std::numeric_limits<T>::min()` and `std::numeric_limits<T>::max()`. -/
structure IntType where
  signed : Bool
  min : Int
  max : Int

/-- The numeric value of a digit character, `c - '0'` of the source. -/
def digitVal (c : Char) : Int := (c.toNat : Int) - ('0'.toNat : Int)

/-- The negative-accumulation loop of `to_integral_impl`
(src/include/string.hpp:549-563): digit check, guard `v < min / 10` before
multiplying, guard `min - v > digit` before adding the negated digit. -/
def negLoop (tmin : Int) (v : Int) : List Char → Option Int
  | [] => some v
  | c :: rest =>
    if c < '0' ∨ '9' < c then none
    else if v < Int.tdiv tmin 10 then none
    else if tmin - v * 10 > -(digitVal c) then none
    else negLoop tmin (v * 10 + -(digitVal c)) rest

/-- The positive-accumulation loop of `to_integral_impl`
(src/include/string.hpp:568-582): digit check, guard `v > max / 10` before
multiplying, guard `max - v < digit` before adding the digit. -/
def posLoop (tmax : Int) (v : Int) : List Char → Option Int
  | [] => some v
  | c :: rest =>
    if c < '0' ∨ '9' < c then none
    else if v > Int.tdiv tmax 10 then none
    else if tmax - v * 10 < digitVal c then none
    else posLoop tmax (v * 10 + digitVal c) rest

/-- `to_integral_impl` (src/include/string.hpp:511-586), generic integer
branch: an optional single sign ('-' only for signed types), at least one
character after the sign, then the range-guarded accumulation loops.
`none` is the source's `return false`. -/
def to_integral_impl (T : IntType) (s : List Char) : Option Int :=
  match s with
  | [] => none
  | c :: rest =>
    if c = '-' then
      if T.signed then
        if rest = [] then none else negLoop T.min 0 rest
      else none
    else if c = '+' then
      if rest = [] then none else posLoop T.max 0 rest
    else posLoop T.max 0 (c :: rest)

/-- `to_integral` (src/include/string.hpp:588-596): the parsed value, or
`errorval` if the string is not convertible. -/
def to_integral (T : IntType) (s : List Char) (errorval : Int) : Int :=
  match to_integral_impl T s with
  | some v => v
  | none => errorval

/-- The `unsigned int` destination used by the source's bool
specialization: unsigned, 32 bits. -/
def uintType : IntType := ⟨false, 0, 0xFFFFFFFF⟩

/-- The `std::is_same_v<T, bool>` branch of `to_integral_impl`
(src/include/string.hpp:514-521): the string is parsed as `unsigned int`
and the result collapsed to `w != 0`; only a failed parse fails — no
bool-range check is performed. -/
def to_integral_impl_bool (s : List Char) : Option Bool :=
  match to_integral_impl uintType s with
  | some w => some (w != 0)
  | none => none

/-- `to_integral` instantiated at `bool`: the collapsed truth value, or
`errorval` if the string does not parse as `unsigned int`. -/
def to_integral_bool (s : List Char) (errorval : Bool) : Bool :=
  match to_integral_impl_bool s with
  | some v => v
  | none => errorval

/-- Decimal digit test, stated on the claim's side. -/
def isDigitChar (c : Char) : Bool := decide ('0' ≤ c ∧ c ≤ '9')

/-- The mathematical value of an unsigned digit string, most significant
digit first. -/
def digitsVal (l : List Char) : Int :=
  l.foldl (fun a c => a * 10 + digitVal c) 0

/-- The mathematical value of an optionally signed decimal digit string,
stated on the claim's side: `none` if the string is not of that shape. -/
def strVal (s : List Char) : Option Int :=
  match s with
  | [] => none
  | c :: rest =>
    if c = '-' then
      if rest ≠ [] ∧ ∀ d ∈ rest, isDigitChar d = true then
        some (-(digitsVal rest))
      else none
    else if c = '+' then
      if rest ≠ [] ∧ ∀ d ∈ rest, isDigitChar d = true then
        some (digitsVal rest)
      else none
    else
      if ∀ d ∈ c :: rest, isDigitChar d = true then
        some (digitsVal (c :: rest))
      else none

theorem char_le_iff (a b : Char) : a ≤ b ↔ a.toNat ≤ b.toNat := by
  exact_mod_cast Iff.rfl

theorem char_lt_iff (a b : Char) : a < b ↔ a.toNat < b.toNat := by
  exact_mod_cast Iff.rfl

/-- A character the digit check does not reject is a decimal digit with
value 0–9. -/
theorem digit_of_not_rejected (c : Char) (h : ¬ (c < '0' ∨ '9' < c)) :
    isDigitChar c = true ∧ 0 ≤ digitVal c ∧ digitVal c ≤ 9 := by
  push_neg at h
  obtain ⟨h1, h2⟩ := h
  have hn1 : '0'.toNat ≤ c.toNat := (char_le_iff _ _).mp h1
  have hn2 : c.toNat ≤ '9'.toNat := (char_le_iff _ _).mp h2
  have e0 : ('0'.toNat : Nat) = 48 := by decide
  have e9 : ('9'.toNat : Nat) = 57 := by decide
  rw [e0] at hn1
  rw [e9] at hn2
  refine ⟨?_, ?_, ?_⟩
  · simp only [isDigitChar, decide_eq_true_eq]
    exact ⟨h1, h2⟩
  · simp only [digitVal, e0]
    omega
  · simp only [digitVal, e0]
    omega

/-- Soundness of the positive loop: a successful run returns the decimal
fold of its input, stays within [0, max], and only consumed digits. -/
theorem posLoop_sound (tmax : Int) (l : List Char) : ∀ (v w : Int),
    posLoop tmax v l = some w → 0 ≤ v → v ≤ tmax →
    w = l.foldl (fun a c => a * 10 + digitVal c) v ∧ 0 ≤ w ∧ w ≤ tmax ∧
      ∀ d ∈ l, isDigitChar d = true := by
  induction l with
  | nil =>
    intro v w h hv0 hvm
    simp only [posLoop, Option.some.injEq] at h
    subst h
    simpa using ⟨hv0, hvm⟩
  | cons c rest ih =>
    intro v w h hv0 hvm
    by_cases h1 : c < '0' ∨ '9' < c
    · simp [posLoop, h1] at h
    · by_cases h2 : v > Int.tdiv tmax 10
      · simp [posLoop, h1, h2] at h
      · by_cases h3 : tmax - v * 10 < digitVal c
        · simp [posLoop, h1, h2, h3] at h
        · simp only [posLoop, if_neg h1, if_neg h2, if_neg h3] at h
          obtain ⟨hdig, hd0, hd9⟩ := digit_of_not_rejected c h1
          obtain ⟨hw, hw0, hwm, hrest⟩ := ih (v * 10 + digitVal c) w h
            (by omega) (by omega)
          refine ⟨by simpa using hw, hw0, hwm, ?_⟩
          intro d hd
          rcases List.mem_cons.mp hd with rfl | hd
          · exact hdig
          · exact hrest d hd

/-- Soundness of the negative loop: a successful run returns the negative
decimal fold of its input, stays within [min, 0], and only consumed
digits. -/
theorem negLoop_sound (tmin : Int) (l : List Char) : ∀ (v w : Int),
    negLoop tmin v l = some w → tmin ≤ v → v ≤ 0 →
    w = l.foldl (fun a c => a * 10 - digitVal c) v ∧ tmin ≤ w ∧ w ≤ 0 ∧
      ∀ d ∈ l, isDigitChar d = true := by
  induction l with
  | nil =>
    intro v w h hvm hv0
    simp only [negLoop, Option.some.injEq] at h
    subst h
    simpa using ⟨hvm, hv0⟩
  | cons c rest ih =>
    intro v w h hvm hv0
    by_cases h1 : c < '0' ∨ '9' < c
    · simp [negLoop, h1] at h
    · by_cases h2 : v < Int.tdiv tmin 10
      · simp [negLoop, h1, h2] at h
      · by_cases h3 : tmin - v * 10 > -(digitVal c)
        · simp [negLoop, h1, h2, h3] at h
        · simp only [negLoop, if_neg h1, if_neg h2, if_neg h3] at h
          obtain ⟨hdig, hd0, hd9⟩ := digit_of_not_rejected c h1
          obtain ⟨hw, hwm, hw0, hrest⟩ := ih (v * 10 + -(digitVal c)) w h
            (by omega) (by omega)
          refine ⟨?_, hwm, hw0, ?_⟩
          · rw [hw]
            simp only [List.foldl_cons]
            congr 1
          · intro d hd
            rcases List.mem_cons.mp hd with rfl | hd
            · exact hdig
            · exact hrest d hd

/-- The negative decimal fold is the negated positive fold. -/
theorem foldl_neg_eq (l : List Char) : ∀ v : Int,
    l.foldl (fun a c => a * 10 - digitVal c) v
      = -(l.foldl (fun a c => a * 10 + digitVal c) (-v)) := by
  induction l with
  | nil => intro v; simp
  | cons c rest ih =>
    intro v
    simp only [List.foldl_cons]
    rw [ih (v * 10 - digitVal c)]
    congr 2
    ring

/-- A successful `to_integral_impl` run computes exactly the mathematical
value of an optionally signed digit string, and that value lies within the
destination type's range. -/
theorem to_integral_impl_sound (T : IntType) (s : List Char) (w : Int)
    (h : to_integral_impl T s = some w) (hmin : T.min ≤ 0) (hmax : 0 ≤ T.max) :
    strVal s = some w ∧ T.min ≤ w ∧ w ≤ T.max := by
  match s with
  | [] => simp [to_integral_impl] at h
  | c :: rest =>
    by_cases hm : c = '-'
    · subst hm
      rw [to_integral_impl] at h
      rw [if_pos (rfl : ('-' : Char) = '-')] at h
      cases hsig : T.signed with
      | false =>
        rw [hsig] at h
        simp at h
      | true =>
        rw [hsig] at h
        rw [if_pos (rfl : true = true)] at h
        by_cases hre : rest = []
        · rw [if_pos hre] at h
          exact absurd h (by simp)
        · rw [if_neg hre] at h
          obtain ⟨hw, hwm, hw0, hdig⟩ := negLoop_sound T.min rest 0 w h hmin le_rfl
          have hv : w = -(digitsVal rest) := by
            rw [hw, foldl_neg_eq]
            simp [digitsVal]
          refine ⟨?_, hwm, le_trans hw0 hmax⟩
          rw [strVal]
          rw [if_pos (rfl : ('-' : Char) = '-')]
          rw [if_pos (And.intro hre hdig), hv]
    · by_cases hp : c = '+'
      · subst hp
        rw [to_integral_impl] at h
        rw [if_neg (by decide : ¬ ('+' : Char) = '-')] at h
        rw [if_pos (rfl : ('+' : Char) = '+')] at h
        by_cases hre : rest = []
        · rw [if_pos hre] at h
          exact absurd h (by simp)
        · rw [if_neg hre] at h
          obtain ⟨hw, hw0, hwm, hdig⟩ := posLoop_sound T.max rest 0 w h le_rfl hmax
          have hv : w = digitsVal rest := by
            rw [hw]
            simp [digitsVal]
          refine ⟨?_, le_trans hmin hw0, hwm⟩
          rw [strVal]
          rw [if_neg (by decide : ¬ ('+' : Char) = '-')]
          rw [if_pos (rfl : ('+' : Char) = '+')]
          rw [if_pos (And.intro hre hdig), hv]
      · rw [to_integral_impl] at h
        rw [if_neg hm, if_neg hp] at h
        obtain ⟨hw, hw0, hwm, hdig⟩ := posLoop_sound T.max (c :: rest) 0 w h le_rfl hmax
        have hv : w = digitsVal (c :: rest) := by
          rw [hw]
          simp [digitsVal]
        refine ⟨?_, le_trans hmin hw0, hwm⟩
        rw [strVal]
        rw [if_neg hm, if_neg hp, if_pos hdig, hv]

/-- A digit character passes the loops' rejection test. -/
theorem not_rejected_of_digit (c : Char) (h : isDigitChar c = true) :
    ¬ (c < '0' ∨ '9' < c) := by
  simp only [isDigitChar, decide_eq_true_eq] at h
  simp only [not_or, not_lt]
  exact ⟨h.1, h.2⟩

/-- The decimal fold of digit characters never decreases from a
nonnegative start. -/
theorem foldl_digits_le (l : List Char) : ∀ v : Int, 0 ≤ v →
    (∀ d ∈ l, isDigitChar d = true) →
    v ≤ l.foldl (fun a c => a * 10 + digitVal c) v := by
  induction l with
  | nil =>
    intro v hv _
    simp only [List.foldl_nil]
    exact le_rfl
  | cons c rest ih =>
    intro v hv hd
    obtain ⟨_, h0, h9⟩ :=
      digit_of_not_rejected c (not_rejected_of_digit c (hd c (by simp)))
    simp only [List.foldl_cons]
    have hstep : v ≤ v * 10 + digitVal c := by omega
    exact le_trans hstep (ih _ (by omega) (fun d hd2 => hd d (by simp [hd2])))

/-- Completeness of the positive loop: a digit string whose value fits
below the bound parses successfully to its decimal fold. -/
theorem posLoop_complete (tmax : Int) (htm : 0 ≤ tmax) :
    ∀ (l : List Char) (v : Int), 0 ≤ v →
    (∀ d ∈ l, isDigitChar d = true) →
    l.foldl (fun a c => a * 10 + digitVal c) v ≤ tmax →
    posLoop tmax v l = some (l.foldl (fun a c => a * 10 + digitVal c) v) := by
  intro l
  induction l with
  | nil =>
    intro v _ _ _
    simp [posLoop]
  | cons c rest ih =>
    intro v hv hd hbound
    have hrej := not_rejected_of_digit c (hd c (by simp))
    obtain ⟨_, h0, h9⟩ := digit_of_not_rejected c hrej
    have hdrest : ∀ d ∈ rest, isDigitChar d = true :=
      fun d hd2 => hd d (by simp [hd2])
    rw [List.foldl_cons] at hbound ⊢
    have hlow := foldl_digits_le rest (v * 10 + digitVal c) (by omega) hdrest
    have hvt : v * 10 + digitVal c ≤ tmax := le_trans hlow hbound
    have g2 : ¬ (v > Int.tdiv tmax 10) := by
      rw [Int.tdiv_eq_ediv] <;> omega
    have g3 : ¬ (tmax - v * 10 < digitVal c) := by omega
    rw [posLoop, if_neg hrej, if_neg g2, if_neg g3]
    exact ih (v * 10 + digitVal c) (by omega) hdrest hbound

/-- Completeness of the unsigned parse: an optionally signed digit string
with a positive in-range value parses to exactly that value. -/
theorem to_integral_impl_uint_complete (s : List Char) (n : Int)
    (hval : strVal s = some n) (h1 : 1 ≤ n) (hm : n ≤ uintType.max) :
    to_integral_impl uintType s = some n := by
  match s with
  | [] => simp [strVal] at hval
  | c :: rest =>
    by_cases hmc : c = '-'
    · subst hmc
      rw [strVal] at hval
      rw [if_pos (rfl : ('-' : Char) = '-')] at hval
      by_cases hcond : rest ≠ [] ∧ ∀ d ∈ rest, isDigitChar d = true
      · rw [if_pos hcond] at hval
        have hn : -(digitsVal rest) = n := Option.some.inj hval
        have hge : (0 : Int) ≤ digitsVal rest :=
          foldl_digits_le rest 0 le_rfl hcond.2
        omega
      · rw [if_neg hcond] at hval
        exact absurd hval (by simp)
    · by_cases hpc : c = '+'
      · subst hpc
        rw [strVal] at hval
        rw [if_neg (by decide : ¬ ('+' : Char) = '-')] at hval
        rw [if_pos (rfl : ('+' : Char) = '+')] at hval
        by_cases hcond : rest ≠ [] ∧ ∀ d ∈ rest, isDigitChar d = true
        · rw [if_pos hcond] at hval
          have hn : digitsVal rest = n := Option.some.inj hval
          subst hn
          rw [to_integral_impl]
          rw [if_neg (by decide : ¬ ('+' : Char) = '-')]
          rw [if_pos (rfl : ('+' : Char) = '+')]
          rw [if_neg hcond.1]
          exact posLoop_complete uintType.max (by decide) rest 0 le_rfl hcond.2 hm
        · rw [if_neg hcond] at hval
          exact absurd hval (by simp)
      · rw [strVal] at hval
        rw [if_neg hmc, if_neg hpc] at hval
        by_cases hcond : ∀ d ∈ c :: rest, isDigitChar d = true
        · rw [if_pos hcond] at hval
          have hn : digitsVal (c :: rest) = n := Option.some.inj hval
          subst hn
          rw [to_integral_impl]
          rw [if_neg hmc, if_neg hpc]
          exact posLoop_complete uintType.max (by decide) (c :: rest) 0 le_rfl
            hcond hm
        · rw [if_neg hcond] at hval
          exact absurd hval (by simp)

/-- Counterexample to C10 as stated: at T = bool the source's
specialization (string.hpp:514-521) parses "2" via `unsigned int` and
collapses to `w != 0`, so `to_integral<bool>("2", false)` returns true —
not the error value — although the mathematical value 2 exceeds bool's
maximum of 1. -/
theorem C10_bool_counterexample :
    strVal ['2'] = some 2 ∧ to_integral_bool ['2'] false = true := by decide

/-- C10 (amended): for every integral type other than bool — abstracted by
its signedness flag and its `numeric_limits` bounds — every optionally
signed decimal digit string whose mathematical value lies outside the
range yields `errorval` (the guards against max/min before each
multiply-by-10 and each digit addition prevent any wrapped-around value),
and for an unsigned type any input beginning with '-' yields `errorval`;
for bool, however, conversion goes through `unsigned int` and collapses to
`w != 0`, so any digit string with value in [1, 0xFFFFFFFF] — including
values above bool's maximum — yields true, never `errorval`. -/
theorem C10_range_checked_amended (T : IntType) (s : List Char)
    (n errorval : Int)
    (hmin : T.min ≤ 0) (hmax : 0 ≤ T.max)
    (hval : strVal s = some n) (hout : n < T.min ∨ T.max < n) :
    (to_integral T s errorval = errorval ∧
     (T.signed = false →
       ∀ (s2 : List Char) (e2 : Int), to_integral T ('-' :: s2) e2 = e2)) ∧
    (∀ (s3 : List Char) (m : Int) (e3 : Bool),
       strVal s3 = some m → 1 ≤ m → m ≤ 0xFFFFFFFF →
       to_integral_bool s3 e3 = true) := by
  refine ⟨⟨?_, ?_⟩, ?_⟩
  · rw [to_integral]
    cases himpl : to_integral_impl T s with
    | none => rfl
    | some w =>
      obtain ⟨hsv, hw1, hw2⟩ := to_integral_impl_sound T s w himpl hmin hmax
      rw [hval] at hsv
      cases hsv
      omega
  · intro hsig s2 e2
    rw [to_integral]
    have himpl : to_integral_impl T ('-' :: s2) = none := by
      rw [to_integral_impl]
      simp [hsig]
    rw [himpl]
  · intro s3 m e3 hv3 h13 hm3
    have himp : to_integral_impl uintType s3 = some m :=
      to_integral_impl_uint_complete s3 m hv3 h13 hm3
    have hb : to_integral_bool s3 e3 = (m != 0) := by
      rw [to_integral_bool, to_integral_impl_bool, himp]
    rw [hb]
    simp only [bne_iff_ne, ne_eq, decide_eq_true_eq]
    omega

/-- Witness for C10: parsing "200" into a signed 8-bit type returns the
error value, and the bool clause holds. -/
theorem C10_range_checked_amended_witness :
    strVal ['2', '0', '0'] = some 200 ∧
    ((to_integral ⟨true, -128, 127⟩ ['2', '0', '0'] 0 = 0 ∧
      ((⟨true, -128, 127⟩ : IntType).signed = false →
        ∀ (s2 : List Char) (e2 : Int),
          to_integral ⟨true, -128, 127⟩ ('-' :: s2) e2 = e2)) ∧
     (∀ (s3 : List Char) (m : Int) (e3 : Bool),
        strVal s3 = some m → 1 ≤ m → m ≤ 0xFFFFFFFF →
        to_integral_bool s3 e3 = true)) :=
  ⟨by decide,
   C10_range_checked_amended ⟨true, -128, 127⟩ ['2', '0', '0'] 200 0 (by decide)
     (by decide) (by decide) (Or.inr (by decide))⟩

end LibFZ
